import Mathlib

/-!
Shallow embedding of the `ghistogram` Go package (`src/ghistogram.go`,
the current variant of the file: the `Histogram` struct carrying
`TotCount`, `TotDataPoint`, `MinDataPoint`, `MaxDataPoint` and a mutex).

Modelling conventions:
* `uint64` values are embedded as `ℕ`.  Claims that depend on the
  64-bit range of a data point carry an explicit `< 2 ^ 64` hypothesis.
* The `float64` parameter `binGrowthFactor` is embedded as `ℚ`; the
  growth factors appearing in the claims (`0.0`, `1.5`, `2.0`) and all
  the products the code takes with them are exactly representable in
  `float64`, so `math.Ceil` coincides with the rational ceiling there.
* Go slice reads and writes are `List.getD`/`List.set` in the total
  functions; `Option`-valued checked variants of the operations return
  `none` exactly where Go would panic with an index-out-of-range, and
  are proved to agree with the total functions when no panic happens.
* The mutex is erased from the pure state-passing functions (each Go
  method body is a single critical section); the lock-acquisition
  *order* of `AddAll` is modelled separately for the concurrency claim.
-/

namespace GHistogram

/-- `math.MaxUint64`, the initial value of `MinDataPoint`. -/
def maxUint64 : Nat := 2 ^ 64 - 1

/-- Embedding of the `Histogram` struct (the `sync.Mutex` field is
erased; the pure functions below model the state under the lock). -/
structure Histogram where
  ranges : List Nat
  counts : List Nat
  totCount : Nat
  totDataPoint : Nat
  minDataPoint : Nat
  maxDataPoint : Nat
deriving DecidableEq, Repr

/-- One step of the `NewHistogram` boundary loop:
`gh.Ranges[i] = gh.Ranges[i-1] + binFirst` when `binGrowthFactor == 0.0`,
otherwise `gh.Ranges[i] = uint64(math.Ceil(binGrowthFactor * float64(gh.Ranges[i-1])))`. -/
def nextRange (binGrowthFactor : ℚ) (binFirst prev : Nat) : Nat :=
  if binGrowthFactor = 0 then prev + binFirst
  else Nat.ceil (binGrowthFactor * (prev : ℚ))

/-- The boundaries written by the `NewHistogram` loop at indices
`2, 3, ...`, produced from the previous boundary `prev`; `n` is the
number of loop iterations still to run. -/
def rangesFrom (binGrowthFactor : ℚ) (binFirst prev : Nat) : Nat → List Nat
  | 0 => []
  | n + 1 =>
    nextRange binGrowthFactor binFirst prev ::
      rangesFrom binGrowthFactor binFirst (nextRange binGrowthFactor binFirst prev) n

/-- `NewHistogram(numBins, binFirst, binGrowthFactor)`.  The function
writes `gh.Ranges[0]` and `gh.Ranges[1]` unconditionally, so for
`numBins < 2` Go panics with an index-out-of-range; that panic is
modelled by `none`.  For `numBins ≥ 2` the ranges are
`0 :: binFirst :: loop boundaries`, counts are all-zero of the same
length, `TotCount`/`TotDataPoint` start at `0`, `MinDataPoint` at
`math.MaxUint64` and `MaxDataPoint` at `0`. -/
def newHistogram (numBins binFirst : Nat) (binGrowthFactor : ℚ) : Option Histogram :=
  if 2 ≤ numBins then
    some
      { ranges := 0 :: binFirst :: rangesFrom binGrowthFactor binFirst binFirst (numBins - 2)
        counts := List.replicate numBins 0
        totCount := 0
        totDataPoint := 0
        minDataPoint := maxUint64
        maxDataPoint := 0 }
  else none

/-- Loop of `search`: binary search maintaining the half-open index
range `[i, j)`.  The midpoint `h := i + (j-i)/2` is inlined at each of
its three occurrences.  `dataPoint >= arr[h]` narrows to `[h+1, j)`,
otherwise to `[i, h)`; on exit the loop returns `i`. -/
def searchLoop (arr : List Nat) (dataPoint : Nat) (i j : Nat) : Nat :=
  if hij : i < j then
    if dataPoint ≥ arr.getD (i + (j - i) / 2) 0 then
      searchLoop arr dataPoint (i + (j - i) / 2 + 1) j
    else
      searchLoop arr dataPoint i (i + (j - i) / 2)
  else i
termination_by j - i
decreasing_by
  · omega
  · omega

/-- `search(arr, dataPoint)`: the loop runs over `[0, len(arr))` and the
function returns `i - 1` (as a Go `int`, so `-1` is possible). -/
def search (arr : List Nat) (dataPoint : Nat) : Int :=
  (searchLoop arr dataPoint 0 arr.length : Int) - 1

/-- `Add(dataPoint, count)`: looks up the bin with `search`; when the
index is `≥ 0` it adds `count` to `Counts[idx]` and to `TotCount`, adds
`dataPoint` to `TotDataPoint`, and updates `MinDataPoint` and
`MaxDataPoint`; otherwise the histogram is left unchanged.  (The local
`idx` is inlined.) -/
def Histogram.add (gh : Histogram) (dataPoint count : Nat) : Histogram :=
  if 0 ≤ search gh.ranges dataPoint then
    { gh with
      counts := gh.counts.set (search gh.ranges dataPoint).toNat
        (gh.counts.getD (search gh.ranges dataPoint).toNat 0 + count)
      totCount := gh.totCount + count
      totDataPoint := gh.totDataPoint + dataPoint
      minDataPoint :=
        if gh.minDataPoint > dataPoint then dataPoint else gh.minDataPoint
      maxDataPoint :=
        if gh.maxDataPoint < dataPoint then dataPoint else gh.maxDataPoint }
  else gh

/-- The `AddAll` loop `for i < len(src.Counts): gh.Counts[i] += src.Counts[i]`,
as structural recursion over the two count lists.  The `[], _ :: _`
case is where Go panics (receiver shorter than source); the checked
variant `addAllCountsC` returns `none` exactly there. -/
def addAllCounts : List Nat → List Nat → List Nat
  | dst, [] => dst
  | [], _ :: _ => []
  | d :: ds, s :: ss => (d + s) :: addAllCounts ds ss

/-- `AddAll(src)`: element-wise addition of the source counts into the
receiver, plus accumulation of `TotCount` and `TotDataPoint` and the
min/max merge.  Only receiver fields are assigned. -/
def Histogram.addAll (gh src : Histogram) : Histogram :=
  { gh with
    counts := addAllCounts gh.counts src.counts
    totCount := gh.totCount + src.totCount
    totDataPoint := gh.totDataPoint + src.totDataPoint
    minDataPoint :=
      if gh.minDataPoint > src.minDataPoint then src.minDataPoint else gh.minDataPoint
    maxDataPoint :=
      if gh.maxDataPoint < src.maxDataPoint then src.maxDataPoint else gh.maxDataPoint }

/-- `AddAll` as a transformer of the pair (receiver state, source
state): the method body assigns only to receiver fields and merely
reads the source, so the source component is returned unchanged. -/
def Histogram.addAllPair (gh src : Histogram) : Histogram × Histogram :=
  (gh.addAll src, src)

/-- Structural facts that hold for every histogram produced by
`NewHistogram` with `numBins ≥ 2` and are preserved by the mutating
operations: at least two bins, parallel `Ranges`/`Counts` arrays, and
`Ranges[0] == 0`. -/
def WellFormed (gh : Histogram) : Prop :=
  2 ≤ gh.ranges.length ∧ gh.counts.length = gh.ranges.length ∧ gh.ranges.getD 0 0 = 0

instance (gh : Histogram) : Decidable (WellFormed gh) := by
  unfold WellFormed; infer_instance

/-! Basic bounds of the `search` loop. -/

lemma searchLoop_ge (arr : List Nat) (v : Nat) :
    ∀ (n i j : Nat), j - i ≤ n → i ≤ searchLoop arr v i j := by
  intro n
  induction n with
  | zero =>
    intro i j hn
    rw [searchLoop]
    split
    · next hij => exact absurd hij (by omega)
    · exact le_rfl
  | succ n ih =>
    intro i j hn
    rw [searchLoop]
    split
    · next hij =>
      split
      · exact le_trans (by omega) (ih (i + (j - i) / 2 + 1) j (by omega))
      · exact ih i (i + (j - i) / 2) (by omega)
    · exact le_rfl

lemma searchLoop_ge' (arr : List Nat) (v i j : Nat) : i ≤ searchLoop arr v i j :=
  searchLoop_ge arr v (j - i) i j le_rfl

lemma searchLoop_le (arr : List Nat) (v : Nat) :
    ∀ (n i j : Nat), j - i ≤ n → i ≤ j → searchLoop arr v i j ≤ j := by
  intro n
  induction n with
  | zero =>
    intro i j hn hij
    rw [searchLoop]
    split
    · next h => exact absurd h (by omega)
    · exact hij
  | succ n ih =>
    intro i j hn hij
    rw [searchLoop]
    split
    · next h =>
      split
      · exact ih (i + (j - i) / 2 + 1) j (by omega) (by omega)
      · exact le_trans (ih i (i + (j - i) / 2) (by omega) (by omega)) (by omega)
    · exact hij

lemma searchLoop_le' (arr : List Nat) (v i j : Nat) (hij : i ≤ j) :
    searchLoop arr v i j ≤ j :=
  searchLoop_le arr v (j - i) i j le_rfl hij

lemma sorted_getD_mono {arr : List Nat} (hs : arr.Sorted (· ≤ ·)) {k m : Nat}
    (hkm : k ≤ m) (hm : m < arr.length) : arr.getD k 0 ≤ arr.getD m 0 := by
  have hk : k < arr.length := lt_of_le_of_lt hkm hm
  rcases Nat.eq_or_lt_of_le hkm with rfl | hlt
  · exact le_rfl
  · rw [List.getD_eq_getElem arr 0 hk, List.getD_eq_getElem arr 0 hm]
    exact List.pairwise_iff_getElem.mp hs k m hk hm hlt

/-- Loop invariant of `search` on a sorted array: on exit, every index
below the result holds a value `≤ dataPoint`, and every in-range index
at or above the result holds a value `> dataPoint`. -/
lemma searchLoop_inv (arr : List Nat) (v : Nat) (hs : arr.Sorted (· ≤ ·)) :
    ∀ (n i j : Nat), j - i ≤ n → j ≤ arr.length →
      (∀ k, k < i → arr.getD k 0 ≤ v) →
      (∀ k, j ≤ k → k < arr.length → v < arr.getD k 0) →
      (∀ k, k < searchLoop arr v i j → arr.getD k 0 ≤ v) ∧
      (∀ k, searchLoop arr v i j ≤ k → k < arr.length → v < arr.getD k 0) := by
  intro n
  induction n with
  | zero =>
    intro i j hn hj hlo hhi
    rw [searchLoop]
    split
    · next h => exact absurd h (by omega)
    · exact ⟨hlo, fun k hk hklen => hhi k (by omega) hklen⟩
  | succ n ih =>
    intro i j hn hj hlo hhi
    rw [searchLoop]
    split
    · next hij =>
      split
      · next hge =>
        refine ih (i + (j - i) / 2 + 1) j (by omega) hj ?_ hhi
        intro k hk
        have hmid : i + (j - i) / 2 < arr.length := by omega
        exact le_trans (sorted_getD_mono hs (by omega) hmid) hge
      · next hlt =>
        refine ih i (i + (j - i) / 2) (by omega) (by omega) hlo ?_
        intro k hk hklen
        have := sorted_getD_mono hs hk hklen
        omega
    · exact ⟨hlo, fun k hk hklen => hhi k (by omega) hklen⟩

/-- Whenever `arr[0] <= dataPoint` the loop never settles on `0`:
to return `0` the final comparison must have rejected index `0`. -/
lemma searchLoop_pos (arr : List Nat) (v : Nat) (h0 : arr.getD 0 0 ≤ v) :
    ∀ (n j : Nat), j ≤ n → 1 ≤ j → 1 ≤ searchLoop arr v 0 j := by
  intro n
  induction n with
  | zero => intro j hn h1; exact absurd h1 (by omega)
  | succ n ih =>
    intro j hn h1
    rw [searchLoop]
    split
    · next hij =>
      split
      · next hge =>
        exact le_trans (by omega) (searchLoop_ge' arr v (0 + (j - 0) / 2 + 1) j)
      · next hlt =>
        by_cases hm : 0 + (j - 0) / 2 = 0
        · rw [hm] at hlt
          exact absurd h0 hlt
        · exact ih (0 + (j - 0) / 2) (by omega) (by omega)
    · next hij => exact absurd h1 (by omega)

/-- On a well-formed histogram `search` always lands on a real bin:
`Ranges[0] == 0` is `≤` every data point, so the result is `≥ 0`, and
it is below the length of the ranges array. -/
lemma search_bounds_of_wf (gh : Histogram) (h : WellFormed gh) (v : Nat) :
    0 ≤ search gh.ranges v ∧ (search gh.ranges v).toNat < gh.ranges.length := by
  obtain ⟨h2, hcl, h0⟩ := h
  have hpos : 1 ≤ searchLoop gh.ranges v 0 gh.ranges.length :=
    searchLoop_pos gh.ranges v (by rw [h0]; exact Nat.zero_le v)
      gh.ranges.length gh.ranges.length le_rfl (by omega)
  have hle : searchLoop gh.ranges v 0 gh.ranges.length ≤ gh.ranges.length :=
    searchLoop_le' gh.ranges v 0 gh.ranges.length (Nat.zero_le _)
  unfold search
  omega

/-- C1: for every non-decreasing boundary sequence `B` and query value
`v`, `search(B, v)` returns the greatest index `i` with `B[i] <= v`,
and returns `-1` when no such index exists (in particular on the empty
sequence, whose "no index" hypothesis holds vacuously). -/
theorem search_returns_greatest_le (arr : List Nat) (hs : arr.Sorted (· ≤ ·)) (v : Nat) :
    ((∀ i, i < arr.length → v < arr.getD i 0) → search arr v = -1) ∧
    (∀ i, i < arr.length → arr.getD i 0 ≤ v →
      0 ≤ search arr v ∧ (search arr v).toNat < arr.length ∧
      arr.getD (search arr v).toNat 0 ≤ v ∧
      ∀ j, j < arr.length → arr.getD j 0 ≤ v → (j : Int) ≤ search arr v) := by
  obtain ⟨hP1, hP2⟩ :=
    searchLoop_inv arr v hs arr.length 0 arr.length (by omega) le_rfl
      (fun k hk => absurd hk (Nat.not_lt_zero k))
      (fun k h1 h2 => absurd h1 (by omega))
  have hle : searchLoop arr v 0 arr.length ≤ arr.length :=
    searchLoop_le' arr v 0 arr.length (Nat.zero_le _)
  have hsearch : search arr v = (searchLoop arr v 0 arr.length : Int) - 1 := rfl
  constructor
  · intro hall
    rw [hsearch]
    have hzero : searchLoop arr v 0 arr.length = 0 := by
      by_contra hne
      have h1 : 0 < searchLoop arr v 0 arr.length := Nat.pos_of_ne_zero hne
      have h2 : arr.getD (searchLoop arr v 0 arr.length - 1) 0 ≤ v :=
        hP1 (searchLoop arr v 0 arr.length - 1) (by omega)
      have h3 : v < arr.getD (searchLoop arr v 0 arr.length - 1) 0 :=
        hall (searchLoop arr v 0 arr.length - 1) (by omega)
      omega
    omega
  · intro i hi hiv
    have hr1 : 1 ≤ searchLoop arr v 0 arr.length := by
      by_contra hlt
      have := hP2 i (by omega) hi
      omega
    refine ⟨by rw [hsearch]; omega, by rw [hsearch]; omega, ?_, ?_⟩
    · have htn : (search arr v).toNat = searchLoop arr v 0 arr.length - 1 := by
        rw [hsearch]; omega
      rw [htn]
      exact hP1 (searchLoop arr v 0 arr.length - 1) (by omega)
    · intro j hj hjv
      have hjr : j < searchLoop arr v 0 arr.length := by
        by_contra hge2
        have := hP2 j (by omega) hj
        omega
      rw [hsearch]
      omega
theorem search_returns_greatest_le_witness :
    List.Sorted (· ≤ ·) [0, 10, 20] ∧
    (((∀ i, i < [0, 10, 20].length → 15 < [0, 10, 20].getD i 0) →
        search [0, 10, 20] 15 = -1) ∧
     (∀ i, i < [0, 10, 20].length → [0, 10, 20].getD i 0 ≤ 15 →
       0 ≤ search [0, 10, 20] 15 ∧
       (search [0, 10, 20] 15).toNat < [0, 10, 20].length ∧
       [0, 10, 20].getD (search [0, 10, 20] 15).toNat 0 ≤ 15 ∧
       ∀ j, j < [0, 10, 20].length → [0, 10, 20].getD j 0 ≤ 15 →
         (j : Int) ≤ search [0, 10, 20] 15)) :=
  ⟨by decide, search_returns_greatest_le [0, 10, 20] (by decide) 15⟩

/-! Small `List.set`/`List.getD` facts used to reason about the
`Counts[idx] += count` update. -/

lemma getD_set_self (l : List Nat) (n x : Nat) (h : n < l.length) :
    (l.set n x).getD n 0 = x := by
  induction l generalizing n with
  | nil => simp at h
  | cons a t ih =>
    cases n with
    | zero => rfl
    | succ m => exact ih m (Nat.succ_lt_succ_iff.mp h)

lemma getD_set_ne (l : List Nat) (m n x : Nat) (h : m ≠ n) :
    (l.set m x).getD n 0 = l.getD n 0 := by
  induction l generalizing m n with
  | nil => rfl
  | cons a t ih =>
    cases m with
    | zero =>
      cases n with
      | zero => exact absurd rfl h
      | succ k => rfl
    | succ m2 =>
      cases n with
      | zero => rfl
      | succ k => exact ih m2 k (fun he => h (by rw [he]))

lemma set_getD_self (l : List Nat) (n : Nat) (h : n < l.length) :
    l.set n (l.getD n 0) = l := by
  induction l generalizing n with
  | nil => rfl
  | cons a t ih =>
    cases n with
    | zero => rfl
    | succ m =>
      show a :: t.set m (t.getD m 0) = a :: t
      rw [ih m (Nat.succ_lt_succ_iff.mp h)]

/-- On a well-formed histogram, `search` returns a valid index, so the
`idx >= 0` branch of `Add` is the one taken. -/
lemma add_eq_of_wf (gh : Histogram) (h : WellFormed gh) (v w : Nat) :
    gh.add v w =
      { gh with
        counts := gh.counts.set (search gh.ranges v).toNat
          (gh.counts.getD (search gh.ranges v).toNat 0 + w)
        totCount := gh.totCount + w
        totDataPoint := gh.totDataPoint + v
        minDataPoint := if gh.minDataPoint > v then v else gh.minDataPoint
        maxDataPoint := if gh.maxDataPoint < v then v else gh.maxDataPoint } := by
  unfold Histogram.add
  rw [if_pos (search_bounds_of_wf gh h v).1]

/-- A fixed concrete well-formed histogram used by the witnesses. -/
def sample : Histogram :=
  { ranges := [0, 10, 20], counts := [0, 0, 0], totCount := 0,
    totDataPoint := 0, minDataPoint := maxUint64, maxDataPoint := 0 }

/-- C2: on a well-formed histogram, `Add(v, w)` adds exactly `w` to the
bucket at index `search(Ranges, v)` and to `TotCount`, and every other
bucket count is unchanged. -/
theorem add_weighted_accumulation (gh : Histogram) (h : WellFormed gh) (v w : Nat) :
    0 ≤ search gh.ranges v ∧
    (gh.add v w).counts.getD (search gh.ranges v).toNat 0
      = gh.counts.getD (search gh.ranges v).toNat 0 + w ∧
    (gh.add v w).totCount = gh.totCount + w ∧
    ∀ j, j < gh.counts.length → j ≠ (search gh.ranges v).toNat →
      (gh.add v w).counts.getD j 0 = gh.counts.getD j 0 := by
  have hb := search_bounds_of_wf gh h v
  have hlt : (search gh.ranges v).toNat < gh.counts.length := by
    rw [h.2.1]; exact hb.2
  refine ⟨hb.1, ?_, ?_, ?_⟩
  · rw [add_eq_of_wf gh h v w]
    exact getD_set_self _ _ _ hlt
  · rw [add_eq_of_wf gh h v w]
  · intro j hj hne
    rw [add_eq_of_wf gh h v w]
    exact getD_set_ne _ _ _ _ (Ne.symm hne)

theorem add_weighted_accumulation_witness :
    WellFormed sample ∧
    (0 ≤ search sample.ranges 15 ∧
     (sample.add 15 3).counts.getD (search sample.ranges 15).toNat 0
       = sample.counts.getD (search sample.ranges 15).toNat 0 + 3 ∧
     (sample.add 15 3).totCount = sample.totCount + 3 ∧
     ∀ j, j < sample.counts.length → j ≠ (search sample.ranges 15).toNat →
       (sample.add 15 3).counts.getD j 0 = sample.counts.getD j 0) :=
  ⟨by decide, add_weighted_accumulation sample (by decide) 15 3⟩

/-- C3: `Add(v, w)` adds the raw observed value `v` (not `v * w`) to
`TotDataPoint`, and `AddAll(src)` adds exactly `src.TotDataPoint`. -/
theorem totDataPoint_accumulates_raw_values :
    (∀ gh : Histogram, WellFormed gh → ∀ v w : Nat,
      (gh.add v w).totDataPoint = gh.totDataPoint + v) ∧
    (∀ gh src : Histogram,
      (gh.addAll src).totDataPoint = gh.totDataPoint + src.totDataPoint) := by
  constructor
  · intro gh h v w
    rw [add_eq_of_wf gh h v w]
  · intro gh src
    rfl

theorem totDataPoint_accumulates_raw_values_witness :
    WellFormed sample ∧
    (sample.add 7 3).totDataPoint = sample.totDataPoint + 7 ∧
    (sample.addAll sample).totDataPoint = sample.totDataPoint + sample.totDataPoint :=
  ⟨by decide, totDataPoint_accumulates_raw_values.1 sample (by decide) 7 3,
    totDataPoint_accumulates_raw_values.2 sample sample⟩

/-- C10: a zero-weight `Add(v, 0)` leaves every bucket count and
`TotCount` unchanged, yet still adds `v` to `TotDataPoint` and folds `v`
into `MinDataPoint`/`MaxDataPoint` — not a no-op. -/
theorem add_zero_weight_not_noop (gh : Histogram) (h : WellFormed gh) (v : Nat) :
    (gh.add v 0).counts = gh.counts ∧
    (gh.add v 0).totCount = gh.totCount ∧
    (gh.add v 0).totDataPoint = gh.totDataPoint + v ∧
    (gh.add v 0).minDataPoint = min gh.minDataPoint v ∧
    (gh.add v 0).maxDataPoint = max gh.maxDataPoint v := by
  have hlt : (search gh.ranges v).toNat < gh.counts.length := by
    rw [h.2.1]; exact (search_bounds_of_wf gh h v).2
  rw [add_eq_of_wf gh h v 0]
  refine ⟨?_, rfl, rfl, ?_, ?_⟩
  · show gh.counts.set _ (gh.counts.getD _ 0 + 0) = gh.counts
    rw [Nat.add_zero]
    exact set_getD_self _ _ hlt
  · show (if gh.minDataPoint > v then v else gh.minDataPoint) = min gh.minDataPoint v
    split <;> omega
  · show (if gh.maxDataPoint < v then v else gh.maxDataPoint) = max gh.maxDataPoint v
    split <;> omega

theorem add_zero_weight_not_noop_witness :
    WellFormed sample ∧
    ((sample.add 7 0).counts = sample.counts ∧
     (sample.add 7 0).totCount = sample.totCount ∧
     (sample.add 7 0).totDataPoint = sample.totDataPoint + 7 ∧
     (sample.add 7 0).minDataPoint = min sample.minDataPoint 7 ∧
     (sample.add 7 0).maxDataPoint = max sample.maxDataPoint 7) :=
  ⟨by decide, add_zero_weight_not_noop sample (by decide) 7⟩

/-- C5: `NewHistogram(5, 10, 2.0)` yields the boundaries
`{0, 10, 20, 40, 80}` and `NewHistogram(5, 10, 1.5)` yields
`{0, 10, 15, 23, 35}`; from index 2 on, each boundary is the previous
one multiplied by the growth factor and rounded up to the nearest
integer (the `Chain'` conjuncts state this for each adjacent pair from
`Ranges[1]` on). -/
theorem geometric_boundary_construction :
    Option.map Histogram.ranges (newHistogram 5 10 2) = some [0, 10, 20, 40, 80] ∧
    Option.map Histogram.ranges (newHistogram 5 10 (3 / 2)) = some [0, 10, 15, 23, 35] ∧
    List.Chain' (fun a b : Nat => b = Nat.ceil ((2 : ℚ) * (a : ℚ))) [10, 20, 40, 80] ∧
    List.Chain' (fun a b : Nat => b = Nat.ceil ((3 / 2 : ℚ) * (a : ℚ))) [10, 15, 23, 35] := by
  have h20 : nextRange 2 10 10 = 20 := by
    unfold nextRange
    rw [if_neg (by norm_num), Nat.ceil_eq_iff (by norm_num)]
    constructor <;> norm_num
  have h40 : nextRange 2 10 20 = 40 := by
    unfold nextRange
    rw [if_neg (by norm_num), Nat.ceil_eq_iff (by norm_num)]
    constructor <;> norm_num
  have h80 : nextRange 2 10 40 = 80 := by
    unfold nextRange
    rw [if_neg (by norm_num), Nat.ceil_eq_iff (by norm_num)]
    constructor <;> norm_num
  have g15 : nextRange (3 / 2) 10 10 = 15 := by
    unfold nextRange
    rw [if_neg (by norm_num), Nat.ceil_eq_iff (by norm_num)]
    constructor <;> norm_num
  have g23 : nextRange (3 / 2) 10 15 = 23 := by
    unfold nextRange
    rw [if_neg (by norm_num), Nat.ceil_eq_iff (by norm_num)]
    constructor <;> norm_num
  have g35 : nextRange (3 / 2) 10 23 = 35 := by
    unfold nextRange
    rw [if_neg (by norm_num), Nat.ceil_eq_iff (by norm_num)]
    constructor <;> norm_num
  refine ⟨?_, ?_, ?_, ?_⟩
  · simp [newHistogram, rangesFrom, h20, h40, h80]
  · simp [newHistogram, rangesFrom, g15, g23, g35]
  · simp only [List.chain'_cons, List.chain'_singleton, and_true]
    refine ⟨?_, ?_, ?_⟩ <;>
      (rw [eq_comm, Nat.ceil_eq_iff (by norm_num)]; constructor <;> norm_num)
  · simp only [List.chain'_cons, List.chain'_singleton, and_true]
    refine ⟨?_, ?_, ?_⟩ <;>
      (rw [eq_comm, Nat.ceil_eq_iff (by norm_num)]; constructor <;> norm_num)

/-! Element-wise facts about the `AddAll` counts loop. -/

lemma addAllCounts_length : ∀ (dst src : List Nat), src.length ≤ dst.length →
    (addAllCounts dst src).length = dst.length := by
  intro dst src
  induction src generalizing dst with
  | nil => intro hlen; simp [addAllCounts]
  | cons s ss ih =>
    intro hlen
    cases dst with
    | nil => simp at hlen
    | cons d ds =>
      show ((d + s) :: addAllCounts ds ss).length = (d :: ds).length
      simpa using ih ds (by simpa using hlen)

lemma addAllCounts_getD : ∀ (dst src : List Nat), src.length ≤ dst.length →
    ∀ i, i < src.length →
      (addAllCounts dst src).getD i 0 = dst.getD i 0 + src.getD i 0 := by
  intro dst src
  induction src generalizing dst with
  | nil => intro hlen i hi; exact absurd hi (by simp)
  | cons s ss ih =>
    intro hlen i hi
    cases dst with
    | nil => simp at hlen
    | cons d ds =>
      cases i with
      | zero => rfl
      | succ k => exact ih ds (by simpa using hlen) k (by simpa using hi)

/-- A second concrete histogram (same bucket shape as `sample`) used by
the witnesses. -/
def sample2 : Histogram :=
  { ranges := [0, 10, 20], counts := [4, 5, 6], totCount := 15,
    totDataPoint := 0, minDataPoint := maxUint64, maxDataPoint := 0 }

/-- C4: with identical bucket shape, merging `a` into `b` twice (with
`a` not mutated in between) gives bucket counts `original(b) + 2*a`
element-wise, and `a` — threaded through both merges as the source
component of the state pair — comes back unchanged. -/
theorem addAll_twice_accumulates (b a : Histogram)
    (hlen : a.counts.length = b.counts.length) :
    (∀ i, i < b.counts.length →
      ((b.addAllPair a).1.addAllPair (b.addAllPair a).2).1.counts.getD i 0
        = b.counts.getD i 0 + 2 * a.counts.getD i 0) ∧
    ((b.addAllPair a).1.addAllPair (b.addAllPair a).2).2 = a := by
  constructor
  · intro i hi
    have h1 : a.counts.length ≤ b.counts.length := le_of_eq hlen
    have hl1 : (addAllCounts b.counts a.counts).length = b.counts.length :=
      addAllCounts_length _ _ h1
    show (addAllCounts (addAllCounts b.counts a.counts) a.counts).getD i 0 = _
    rw [addAllCounts_getD _ _ (by omega) i (by omega),
      addAllCounts_getD _ _ h1 i (by omega)]
    omega
  · rfl

theorem addAll_twice_accumulates_witness :
    sample.counts.length = sample2.counts.length ∧
    ((∀ i, i < sample2.counts.length →
      ((sample2.addAllPair sample).1.addAllPair (sample2.addAllPair sample).2).1.counts.getD i 0
        = sample2.counts.getD i 0 + 2 * sample.counts.getD i 0) ∧
     ((sample2.addAllPair sample).1.addAllPair (sample2.addAllPair sample).2).2 = sample) :=
  ⟨rfl, addAll_twice_accumulates sample2 sample rfl⟩

/-! Min/max tracking across a sequence of inserts (C6). -/

lemma add_wf (gh : Histogram) (h : WellFormed gh) (v w : Nat) :
    WellFormed (gh.add v w) := by
  rw [add_eq_of_wf gh h v w]
  obtain ⟨h2, hcl, h0⟩ := h
  exact ⟨h2, by simpa using hcl, h0⟩

lemma add_min_of_wf (gh : Histogram) (h : WellFormed gh) (v w : Nat) :
    (gh.add v w).minDataPoint = min gh.minDataPoint v := by
  rw [add_eq_of_wf gh h v w]
  show (if gh.minDataPoint > v then v else gh.minDataPoint) = _
  split <;> omega

lemma add_max_of_wf (gh : Histogram) (h : WellFormed gh) (v w : Nat) :
    (gh.add v w).maxDataPoint = max gh.maxDataPoint v := by
  rw [add_eq_of_wf gh h v w]
  show (if gh.maxDataPoint < v then v else gh.maxDataPoint) = _
  split <;> omega

/-- A finite sequence of `Add` calls, each a `(dataPoint, count)` pair. -/
def addList (gh : Histogram) (ps : List (Nat × Nat)) : Histogram :=
  ps.foldl (fun g p => g.add p.1 p.2) gh

lemma addList_wf : ∀ (ps : List (Nat × Nat)) (gh : Histogram),
    WellFormed gh → WellFormed (addList gh ps) := by
  intro ps
  induction ps with
  | nil => intro gh h; exact h
  | cons p t ih => intro gh h; exact ih (gh.add p.1 p.2) (add_wf gh h p.1 p.2)

lemma addList_min : ∀ (ps : List (Nat × Nat)) (gh : Histogram), WellFormed gh →
    (addList gh ps).minDataPoint = (ps.map Prod.fst).foldl min gh.minDataPoint := by
  intro ps
  induction ps with
  | nil => intro gh h; rfl
  | cons p t ih =>
    intro gh h
    show (addList (gh.add p.1 p.2) t).minDataPoint = _
    rw [ih (gh.add p.1 p.2) (add_wf gh h p.1 p.2), add_min_of_wf gh h p.1 p.2]
    rfl

lemma addList_max : ∀ (ps : List (Nat × Nat)) (gh : Histogram), WellFormed gh →
    (addList gh ps).maxDataPoint = (ps.map Prod.fst).foldl max gh.maxDataPoint := by
  intro ps
  induction ps with
  | nil => intro gh h; rfl
  | cons p t ih =>
    intro gh h
    show (addList (gh.add p.1 p.2) t).maxDataPoint = _
    rw [ih (gh.add p.1 p.2) (add_wf gh h p.1 p.2), add_max_of_wf gh h p.1 p.2]
    rfl

lemma foldl_min_le : ∀ (l : List Nat) (init : Nat),
    l.foldl min init ≤ init ∧ ∀ x ∈ l, l.foldl min init ≤ x := by
  intro l
  induction l with
  | nil => intro init; exact ⟨le_rfl, by simp⟩
  | cons a t ih =>
    intro init
    refine ⟨le_trans (ih (min init a)).1 (by omega), ?_⟩
    intro x hx
    rcases List.mem_cons.mp hx with rfl | hx2
    · exact le_trans (ih (min init x)).1 (by omega)
    · exact (ih (min init a)).2 x hx2

lemma foldl_min_eq_or_mem : ∀ (l : List Nat) (init : Nat),
    l.foldl min init = init ∨ l.foldl min init ∈ l := by
  intro l
  induction l with
  | nil => intro init; exact Or.inl rfl
  | cons a t ih =>
    intro init
    rcases ih (min init a) with heq | hmem
    · rcases Nat.le_total init a with hle | hle
      · left
        show List.foldl min (min init a) t = init
        rw [heq]
        omega
      · right
        show List.foldl min (min init a) t ∈ a :: t
        rw [heq]
        have hma : min init a = a := by omega
        rw [hma]
        exact List.mem_cons_self a t
    · exact Or.inr (List.mem_cons_of_mem a hmem)

lemma foldl_max_ge : ∀ (l : List Nat) (init : Nat),
    init ≤ l.foldl max init ∧ ∀ x ∈ l, x ≤ l.foldl max init := by
  intro l
  induction l with
  | nil => intro init; exact ⟨le_rfl, by simp⟩
  | cons a t ih =>
    intro init
    refine ⟨le_trans (by omega) (ih (max init a)).1, ?_⟩
    intro x hx
    rcases List.mem_cons.mp hx with rfl | hx2
    · exact le_trans (by omega) (ih (max init x)).1
    · exact (ih (max init a)).2 x hx2

lemma foldl_max_eq_or_mem : ∀ (l : List Nat) (init : Nat),
    l.foldl max init = init ∨ l.foldl max init ∈ l := by
  intro l
  induction l with
  | nil => intro init; exact Or.inl rfl
  | cons a t ih =>
    intro init
    rcases ih (max init a) with heq | hmem
    · rcases Nat.le_total a init with hle | hle
      · left
        show List.foldl max (max init a) t = init
        rw [heq]
        omega
      · right
        show List.foldl max (max init a) t ∈ a :: t
        rw [heq]
        have hma : max init a = a := by omega
        rw [hma]
        exact List.mem_cons_self a t
    · exact Or.inr (List.mem_cons_of_mem a hmem)

lemma rangesFrom_length (g : ℚ) (bf : Nat) : ∀ (n p : Nat),
    (rangesFrom g bf p n).length = n := by
  intro n
  induction n with
  | zero => intro p; rfl
  | succ n ih =>
    intro p
    show (nextRange g bf p :: rangesFrom g bf (nextRange g bf p) n).length = n + 1
    rw [List.length_cons, ih]

lemma newHistogram_wf (nb bf : Nat) (g : ℚ) (gh : Histogram)
    (h : newHistogram nb bf g = some gh) : WellFormed gh := by
  unfold newHistogram at h
  split at h
  · next h2 =>
    injection h with h'
    subst h'
    refine ⟨?_, ?_, rfl⟩
    · show 2 ≤ (0 :: bf :: rangesFrom g bf bf (nb - 2)).length
      simp
    · simp only [List.length_replicate, List.length_cons, rangesFrom_length]
      omega
  · exact absurd h (by simp)

/-- A concrete constructed histogram used by the C6 witness. -/
def sampleNew : Histogram :=
  { ranges := [0, 10], counts := [0, 0], totCount := 0, totDataPoint := 0,
    minDataPoint := maxUint64, maxDataPoint := 0 }

/-- C6: a freshly constructed histogram has `MinDataPoint` equal to the
maximum representable `uint64` value and `MaxDataPoint` zero, and after
any non-empty sequence of `Add` calls (any weights) the recorded
minimum/maximum is exactly the least/greatest inserted data point —
characterised order-independently as a member of the inserted values
that bounds them all. -/
theorem minmax_tracking (nb bf : Nat) (g : ℚ) (gh0 : Histogram)
    (h : newHistogram nb bf g = some gh0) :
    gh0.minDataPoint = 2 ^ 64 - 1 ∧ gh0.maxDataPoint = 0 ∧
    ∀ ps : List (Nat × Nat), ps ≠ [] → (∀ p ∈ ps, p.1 < 2 ^ 64) →
      ((addList gh0 ps).minDataPoint ∈ ps.map Prod.fst ∧
        ∀ x ∈ ps.map Prod.fst, (addList gh0 ps).minDataPoint ≤ x) ∧
      ((addList gh0 ps).maxDataPoint ∈ ps.map Prod.fst ∧
        ∀ x ∈ ps.map Prod.fst, x ≤ (addList gh0 ps).maxDataPoint) := by
  have hwf := newHistogram_wf nb bf g gh0 h
  have hinit : gh0.minDataPoint = maxUint64 ∧ gh0.maxDataPoint = 0 := by
    unfold newHistogram at h
    split at h
    · injection h with h'
      subst h'
      exact ⟨rfl, rfl⟩
    · exact absurd h (by simp)
  refine ⟨by rw [hinit.1]; rfl, hinit.2, ?_⟩
  intro ps hne hbound
  have hmin := addList_min ps gh0 hwf
  have hmax := addList_max ps gh0 hwf
  have hvne : ps.map Prod.fst ≠ [] := by simpa using hne
  obtain ⟨v0, hv0⟩ := List.exists_mem_of_ne_nil _ hvne
  refine ⟨⟨?_, ?_⟩, ?_, ?_⟩
  · rcases foldl_min_eq_or_mem (ps.map Prod.fst) gh0.minDataPoint with heq | hmem
    · have hle := (foldl_min_le (ps.map Prod.fst) gh0.minDataPoint).2 v0 hv0
      have hub : v0 < 2 ^ 64 := by
        obtain ⟨p, hp, hpeq⟩ := List.mem_map.mp hv0
        rw [← hpeq]
        exact hbound p hp
      have hv : (ps.map Prod.fst).foldl min gh0.minDataPoint = v0 := by
        rw [heq, hinit.1] at hle ⊢
        unfold maxUint64 at hle ⊢
        omega
      rw [hmin, hv]
      exact hv0
    · rw [hmin]
      exact hmem
  · intro x hx
    rw [hmin]
    exact (foldl_min_le _ _).2 x hx
  · rcases foldl_max_eq_or_mem (ps.map Prod.fst) gh0.maxDataPoint with heq | hmem
    · have hge := (foldl_max_ge (ps.map Prod.fst) gh0.maxDataPoint).2 v0 hv0
      have hv : (ps.map Prod.fst).foldl max gh0.maxDataPoint = v0 := by
        rw [heq, hinit.2] at hge ⊢
        omega
      rw [hmax, hv]
      exact hv0
    · rw [hmax]
      exact hmem
  · intro x hx
    rw [hmax]
    exact (foldl_max_ge _ _).2 x hx

theorem minmax_tracking_witness :
    newHistogram 2 10 0 = some sampleNew ∧
    (sampleNew.minDataPoint = 2 ^ 64 - 1 ∧ sampleNew.maxDataPoint = 0 ∧
     ∀ ps : List (Nat × Nat), ps ≠ [] → (∀ p ∈ ps, p.1 < 2 ^ 64) →
       ((addList sampleNew ps).minDataPoint ∈ ps.map Prod.fst ∧
         ∀ x ∈ ps.map Prod.fst, (addList sampleNew ps).minDataPoint ≤ x) ∧
       ((addList sampleNew ps).maxDataPoint ∈ ps.map Prod.fst ∧
         ∀ x ∈ ps.map Prod.fst, x ≤ (addList sampleNew ps).maxDataPoint)) :=
  ⟨rfl, minmax_tracking 2 10 0 sampleNew rfl⟩

/-! Rendering (`EmitGraph`).  The produced text is modelled as the list
of buffer writes the function performs: raw byte writes (`prefix`, the
space before a bar, the newline), the formatted line — recorded as the
integers handed to `Fprintf` (`ranges[i]`, the bucket width, the count,
the running count and `TotCount`, the latter two forming the percentage
`100*runCount/totCount` whose float formatting is abstracted) — and the
bar write `bar[0:barWant]`, recorded by its length. -/

/-- `len(bar)`, the 30-star bar string. -/
def barLen : Nat := 30

inductive EmitItem where
  | bytes : List Char → EmitItem
  | line : Nat → Nat → Nat → Nat → Nat → EmitItem
  | barWrite : Nat → EmitItem
deriving DecidableEq

/-- The `for i, c := range counts` loop of `EmitGraph`, appending each
line's writes to the accumulated output buffer.  The bucket width is
`ranges[i+1] - ranges[i]` for every bucket but the last, else `0`;
`barWant = floor(barLen * c / maxCount)` (the float division is exact
to compare against Nat division here since `c ≤ maxCount`). -/
def emitLoop (pre : Option (List Char)) (ranges : List Nat)
    (countsN totCount maxCount : Nat) :
    List Nat → Nat → Nat → List EmitItem → List EmitItem
  | [], _, _, out => out
  | c :: rest, i, runCount, out =>
    let out1 := match pre with
      | some p => out ++ [EmitItem.bytes p]
      | none => out
    let width := if i < countsN - 1 then ranges.getD (i + 1) 0 - ranges.getD i 0 else 0
    let out2 := out1 ++ [EmitItem.line (ranges.getD i 0) width c (runCount + c) totCount]
    let out3 := if 0 < c then
        out2 ++ [EmitItem.bytes [' '], EmitItem.barWrite (barLen * c / maxCount)]
      else out2
    emitLoop pre ranges countsN totCount maxCount rest (i + 1) (runCount + c)
      (out3 ++ [EmitItem.bytes ['\n']])

/-- `EmitGraph(prefix, out)`: allocates a fresh empty buffer when `out`
is nil (`out.getD []`), then appends one line per bucket and returns the
pair (histogram state, final buffer).  The histogram component is the
input unchanged — the method body assigns no histogram field.  The
guard is exactly the in-bounds condition of the slice reads
`ranges[rangesN-1]`/`ranges[rangesN-2]` (column widths, needing
`rangesN ≥ 2`) and `ranges[i]`/`ranges[i+1]` inside the loop (needing
`countsN ≤ rangesN`); `none` models the Go index-out-of-range panic
otherwise.  `maxCount` is the loop-computed maximum bucket count. -/
def Histogram.emitGraph (gh : Histogram) (pre : Option (List Char))
    (out : Option (List EmitItem)) : Option (Histogram × List EmitItem) :=
  if 2 ≤ gh.ranges.length ∧ gh.counts.length ≤ gh.ranges.length then
    some (gh,
      emitLoop pre gh.ranges gh.counts.length gh.totCount
        (gh.counts.foldl max 0) gh.counts 0 0 (out.getD []))
  else none

lemma emitLoop_append (pre : Option (List Char)) (ranges : List Nat)
    (countsN totCount maxCount : Nat) :
    ∀ (cs : List Nat) (i runCount : Nat) (out : List EmitItem),
      emitLoop pre ranges countsN totCount maxCount cs i runCount out
        = out ++ emitLoop pre ranges countsN totCount maxCount cs i runCount [] := by
  intro cs
  induction cs with
  | nil => intro i r out; simp [emitLoop]
  | cons c rest ih =>
    intro i r out
    rcases pre with _ | p <;> by_cases hc : 0 < c <;>
      · simp only [emitLoop, hc, if_true, if_false]
        conv_lhs => rw [ih]
        conv_rhs => rw [ih]
        simp [List.append_assoc]

/-- C8: `EmitGraph` leaves every histogram field unchanged (the
returned state is the input histogram itself), appends its output to
the supplied buffer rather than replacing it, and returns that buffer —
starting from a freshly allocated empty one when none was supplied. -/
theorem emitGraph_frame_and_append (gh : Histogram) (h : WellFormed gh)
    (pre : Option (List Char)) :
    ∃ emitted : List EmitItem,
      gh.emitGraph pre none = some (gh, emitted) ∧
      ∀ b : List EmitItem, gh.emitGraph pre (some b) = some (gh, b ++ emitted) := by
  obtain ⟨h2, hcl, h0⟩ := h
  have hg : 2 ≤ gh.ranges.length ∧ gh.counts.length ≤ gh.ranges.length :=
    ⟨h2, le_of_eq hcl⟩
  refine ⟨emitLoop pre gh.ranges gh.counts.length gh.totCount
    (gh.counts.foldl max 0) gh.counts 0 0 [], ?_, ?_⟩
  · unfold Histogram.emitGraph
    rw [if_pos hg]
    rfl
  · intro b
    unfold Histogram.emitGraph
    rw [if_pos hg]
    simp only [Option.getD_some]
    rw [emitLoop_append pre gh.ranges gh.counts.length gh.totCount
      (gh.counts.foldl max 0) gh.counts 0 0 b]

theorem emitGraph_frame_and_append_witness :
    WellFormed sample ∧
    ∃ emitted : List EmitItem,
      sample.emitGraph none none = some (sample, emitted) ∧
      ∀ b : List EmitItem, sample.emitGraph none (some b) = some (sample, b ++ emitted) :=
  ⟨by decide, emitGraph_frame_and_append sample (by decide) none⟩

/-! Checked variants: the same operations with every Go slice access
bounds-checked, returning `none` exactly where Go would panic.  Each is
proved to return `some` of the total function's result whenever the
relevant precondition holds. -/

/-- `search`'s loop with the `arr[h]` read bounds-checked. -/
def searchLoopC (arr : List Nat) (dataPoint : Nat) (i j : Nat) : Option Nat :=
  if hij : i < j then
    if i + (j - i) / 2 < arr.length then
      if dataPoint ≥ arr.getD (i + (j - i) / 2) 0 then
        searchLoopC arr dataPoint (i + (j - i) / 2 + 1) j
      else
        searchLoopC arr dataPoint i (i + (j - i) / 2)
    else none
  else some i
termination_by j - i
decreasing_by
  · omega
  · omega

lemma searchLoopC_eq (arr : List Nat) (v : Nat) :
    ∀ (n i j : Nat), j - i ≤ n → j ≤ arr.length →
      searchLoopC arr v i j = some (searchLoop arr v i j) := by
  intro n
  induction n with
  | zero =>
    intro i j hn hj
    have hij : ¬ i < j := by omega
    rw [searchLoopC, searchLoop, dif_neg hij, dif_neg hij]
  | succ n ih =>
    intro i j hn hj
    by_cases hij : i < j
    · have hmid : i + (j - i) / 2 < arr.length := by omega
      rw [searchLoopC, searchLoop, dif_pos hij, dif_pos hij, if_pos hmid]
      by_cases hge : v ≥ arr.getD (i + (j - i) / 2) 0
      · rw [if_pos hge, if_pos hge]
        exact ih _ _ (by omega) hj
      · rw [if_neg hge, if_neg hge]
        exact ih _ _ (by omega) (by omega)
    · rw [searchLoopC, searchLoop, dif_neg hij, dif_neg hij]

/-- Bounds-checked `search`: the loop index `h` always stays inside the
array, so this coincides with `search`. -/
def searchC (arr : List Nat) (dataPoint : Nat) : Option Int :=
  (searchLoopC arr dataPoint 0 arr.length).map (fun r => (r : Int) - 1)

lemma searchC_eq (arr : List Nat) (v : Nat) : searchC arr v = some (search arr v) := by
  unfold searchC search
  rw [searchLoopC_eq arr v arr.length 0 arr.length (by omega) le_rfl]
  rfl

/-- `Add` with the `Counts[idx]` write bounds-checked. -/
def Histogram.addC (gh : Histogram) (dataPoint count : Nat) : Option Histogram :=
  match searchC gh.ranges dataPoint with
  | none => none
  | some idx =>
    if 0 ≤ idx then
      if idx.toNat < gh.counts.length then
        some { gh with
          counts := gh.counts.set idx.toNat (gh.counts.getD idx.toNat 0 + count)
          totCount := gh.totCount + count
          totDataPoint := gh.totDataPoint + dataPoint
          minDataPoint :=
            if gh.minDataPoint > dataPoint then dataPoint else gh.minDataPoint
          maxDataPoint :=
            if gh.maxDataPoint < dataPoint then dataPoint else gh.maxDataPoint }
      else none
    else some gh

lemma addC_eq_of_wf (gh : Histogram) (h : WellFormed gh) (v w : Nat) :
    gh.addC v w = some (gh.add v w) := by
  have hb := search_bounds_of_wf gh h v
  have hlt : (search gh.ranges v).toNat < gh.counts.length := by
    rw [h.2.1]; exact hb.2
  unfold Histogram.addC
  rw [searchC_eq gh.ranges v]
  show (if 0 ≤ search gh.ranges v then
      if (search gh.ranges v).toNat < gh.counts.length then
        some { gh with
          counts := gh.counts.set (search gh.ranges v).toNat
            (gh.counts.getD (search gh.ranges v).toNat 0 + w)
          totCount := gh.totCount + w
          totDataPoint := gh.totDataPoint + v
          minDataPoint := if gh.minDataPoint > v then v else gh.minDataPoint
          maxDataPoint := if gh.maxDataPoint < v then v else gh.maxDataPoint }
      else none
    else some gh) = some (gh.add v w)
  rw [if_pos hb.1, if_pos hlt, add_eq_of_wf gh h v w]

/-- The `AddAll` counts loop with the `gh.Counts[i]` write
bounds-checked: `none` when the source is longer than the receiver. -/
def addAllCountsC : List Nat → List Nat → Option (List Nat)
  | dst, [] => some dst
  | [], _ :: _ => none
  | d :: ds, s :: ss => (addAllCountsC ds ss).map (fun t => (d + s) :: t)

lemma addAllCountsC_eq : ∀ (dst src : List Nat), src.length ≤ dst.length →
    addAllCountsC dst src = some (addAllCounts dst src) := by
  intro dst src
  induction src generalizing dst with
  | nil => intro hlen; simp [addAllCountsC, addAllCounts]
  | cons s ss ih =>
    intro hlen
    cases dst with
    | nil => simp at hlen
    | cons d ds =>
      show (addAllCountsC ds ss).map _ = some ((d + s) :: addAllCounts ds ss)
      rw [ih ds (by simpa using hlen)]
      rfl

/-- `AddAll` with its loop bounds-checked. -/
def Histogram.addAllC (gh src : Histogram) : Option Histogram :=
  (addAllCountsC gh.counts src.counts).map (fun cs =>
    { gh with
      counts := cs
      totCount := gh.totCount + src.totCount
      totDataPoint := gh.totDataPoint + src.totDataPoint
      minDataPoint :=
        if gh.minDataPoint > src.minDataPoint then src.minDataPoint else gh.minDataPoint
      maxDataPoint :=
        if gh.maxDataPoint < src.maxDataPoint then src.maxDataPoint else gh.maxDataPoint })

lemma addAllC_eq (gh src : Histogram) (hlen : src.counts.length ≤ gh.counts.length) :
    gh.addAllC src = some (gh.addAll src) := by
  unfold Histogram.addAllC
  rw [addAllCountsC_eq gh.counts src.counts hlen]
  rfl

lemma emitGraph_some_of_wf (gh : Histogram) (h : WellFormed gh)
    (pre : Option (List Char)) (b : Option (List EmitItem)) :
    gh.emitGraph pre b = some (gh,
      emitLoop pre gh.ranges gh.counts.length gh.totCount
        (gh.counts.foldl max 0) gh.counts 0 0 (b.getD [])) := by
  unfold Histogram.emitGraph
  rw [if_pos ⟨h.1, le_of_eq h.2.1⟩]

/-- C7: `NewHistogram` does not validate `numBins`.  For `numBins ≥ 2`
construction succeeds and every slice access in `Add`, in `AddAll`
(under its documented identical-shape precondition) and in `EmitGraph`
on the resulting histogram is in bounds — the bounds-checked variants
return `some`; for `numBins < 2` construction itself performs an
out-of-bounds access (modelled by `none`). -/
theorem numBins_bounds (nb bf : Nat) (g : ℚ) :
    (2 ≤ nb → ∃ gh : Histogram, newHistogram nb bf g = some gh ∧
      (∀ v w : Nat, gh.addC v w = some (gh.add v w)) ∧
      (∀ src : Histogram, src.counts.length = gh.counts.length →
        gh.addAllC src = some (gh.addAll src)) ∧
      (∀ (pre : Option (List Char)) (b : Option (List EmitItem)),
        ∃ r, gh.emitGraph pre b = some r)) ∧
    (nb < 2 → newHistogram nb bf g = none) := by
  constructor
  · intro h2
    have hsome : newHistogram nb bf g = some
        { ranges := 0 :: bf :: rangesFrom g bf bf (nb - 2)
          counts := List.replicate nb 0
          totCount := 0
          totDataPoint := 0
          minDataPoint := maxUint64
          maxDataPoint := 0 } := by
      unfold newHistogram
      rw [if_pos h2]
    have hwf := newHistogram_wf nb bf g _ hsome
    refine ⟨_, hsome, ?_, ?_, ?_⟩
    · intro v w
      exact addC_eq_of_wf _ hwf v w
    · intro src hlen
      exact addAllC_eq _ src (le_of_eq hlen)
    · intro pre b
      exact ⟨_, emitGraph_some_of_wf _ hwf pre b⟩
  · intro hlt
    unfold newHistogram
    rw [if_neg (by omega)]

theorem numBins_bounds_witness :
    newHistogram 1 10 2 = none ∧
    (∃ gh : Histogram, newHistogram 5 10 2 = some gh ∧
      (∀ v w : Nat, gh.addC v w = some (gh.add v w)) ∧
      (∀ src : Histogram, src.counts.length = gh.counts.length →
        gh.addAllC src = some (gh.addAll src)) ∧
      (∀ (pre : Option (List Char)) (b : Option (List EmitItem)),
        ∃ r, gh.emitGraph pre b = some r)) :=
  ⟨(numBins_bounds 1 10 2).2 (by omega), (numBins_bounds 5 10 2).1 (by omega)⟩

/-! Lock acquisition in `AddAll` (C9).  The pure functions above model
each method body as one critical section; what remains of the mutex for
the concurrency claim is the *order* in which `AddAll` takes the two
locks: the body is `src.m.Lock(); gh.m.Lock(); ...mutations...;
gh.m.Unlock(); src.m.Unlock()`, i.e. both locks are taken before any
state is touched, always the source's lock first. -/

/-- The mutex-acquisition sequence of `AddAll`, with mutexes named by
the histogram they belong to: the source's lock, then the receiver's. -/
def addAllLockOrder (gh src : Nat) : List Nat := [src, gh]

/-- Two threads, each in the lock-acquisition prefix of an `AddAll`
call: the locks each thread still has to acquire, in order, and the
locks it currently holds. -/
structure LockState where
  rem1 : List Nat
  held1 : List Nat
  rem2 : List Nat
  held2 : List Nat
deriving DecidableEq

/-- One scheduler step: a thread acquires its next lock provided nobody
holds it (Go's `sync.Mutex` is not reentrant, so "nobody" includes the
acquiring thread itself). -/
inductive LockStep : LockState → LockState → Prop
  | t1 (s : LockState) (m : Nat) (r : List Nat) :
      s.rem1 = m :: r → m ∉ s.held1 → m ∉ s.held2 →
      LockStep s ⟨r, m :: s.held1, s.rem2, s.held2⟩
  | t2 (s : LockState) (m : Nat) (r : List Nat) :
      s.rem2 = m :: r → m ∉ s.held1 → m ∉ s.held2 →
      LockStep s ⟨s.rem1, s.held1, r, m :: s.held2⟩

/-- Circular wait: each thread's next lock is held by the other thread,
so neither can ever proceed (an `AddAll` releases its locks only after
the whole acquisition succeeded). -/
def Deadlocked (s : LockState) : Prop :=
  (∃ m r, s.rem1 = m :: r ∧ m ∈ s.held2) ∧
  (∃ m r, s.rem2 = m :: r ∧ m ∈ s.held1)

/-- Two concurrent merges in opposite directions between histograms `0`
and `1`: thread 1 runs `h0.AddAll(h1)`, thread 2 runs `h1.AddAll(h0)`,
nothing held yet. -/
def crossedInit : LockState :=
  ⟨addAllLockOrder 0 1, [], addAllLockOrder 1 0, []⟩

/-- C9 counterexample: the source-first order of `AddAll` is not a
consistent global order, and the crossed pair of concurrent merges can
reach a deadlock — thread 1 takes lock `1`, thread 2 takes lock `0`,
and then each waits forever on the lock the other holds.  This refutes
the claim that the code's lock-acquisition order makes deadlock
impossible. -/
theorem addAll_crossed_merge_deadlock :
    ∃ s : LockState, Relation.ReflTransGen LockStep crossedInit s ∧ Deadlocked s := by
  refine ⟨⟨[0], [1], [1], [0]⟩, ?_, ?_⟩
  · have h1 : LockStep crossedInit ⟨[0], [1], addAllLockOrder 1 0, []⟩ :=
      LockStep.t1 crossedInit 1 [0] rfl (by decide) (by decide)
    have h2 : LockStep ⟨[0], [1], addAllLockOrder 1 0, []⟩ ⟨[0], [1], [1], [0]⟩ :=
      LockStep.t2 ⟨[0], [1], addAllLockOrder 1 0, []⟩ 0 [1] rfl (by decide) (by decide)
    exact Relation.ReflTransGen.tail
      (Relation.ReflTransGen.tail Relation.ReflTransGen.refl h1) h2
  · exact ⟨⟨0, [], rfl, by decide⟩, ⟨1, [], rfl, by decide⟩⟩

/-- C9 (amended): `AddAll` does acquire both the source and receiver
locks before touching either histogram's state, in the fixed role-based
order "source first, then receiver" — but that order is not a
consistent global order on the mutexes, and two concurrent merges in
opposite directions can deadlock. -/
theorem addAll_lock_order (gh src : Nat) :
    addAllLockOrder gh src = [src, gh] ∧
    ∃ s : LockState, Relation.ReflTransGen LockStep crossedInit s ∧ Deadlocked s := by
  refine ⟨rfl, ⟨[0], [1], [1], [0]⟩, ?_, ?_⟩
  · have h1 : LockStep crossedInit ⟨[0], [1], addAllLockOrder 1 0, []⟩ :=
      LockStep.t1 crossedInit 1 [0] rfl (by decide) (by decide)
    have h2 : LockStep ⟨[0], [1], addAllLockOrder 1 0, []⟩ ⟨[0], [1], [1], [0]⟩ :=
      LockStep.t2 ⟨[0], [1], addAllLockOrder 1 0, []⟩ 0 [1] rfl (by decide) (by decide)
    exact Relation.ReflTransGen.tail
      (Relation.ReflTransGen.tail Relation.ReflTransGen.refl h1) h2
  · exact ⟨⟨0, [], rfl, by decide⟩, ⟨1, [], rfl, by decide⟩⟩

end GHistogram
